import Mathlib

/-!
Shallow embedding of the obfuscation/restoration engine of the repository:
  * `src/comfyui/scripts/confused_text.py`   (namespace `ConfusedText`)
  * `src/comfyui/scripts/confused_image.py`  (namespace `ConfusedImage`)
  * `src/comfyui/prompts/scirpts/text_processor.py` (namespace `TextProcessor`)

Modelling conventions:
  * A Python `str` is a `List Nat` of Unicode code points (a valid Python
    string has all code points < 1114112).  A `bytes` value is a `List Nat`
    whose entries are < 256.  Mode selector strings are Lean `String`s.
  * Functions that can raise a Python exception return `Except PyErr`;
    functions that are total in the source are total here.
  * The seeded pseudo-random draws (`random.seed`/`random.sample`,
    `random.shuffle`, `numpy.random.seed`/`numpy.random.permutation`) are
    modelled by one deterministic Fisher-Yates style shuffle driven by a
    linear congruential generator (`shuffle` below).  The exact
    pseudo-random stream of CPython / NumPy is not reproduced; every claim
    below depends only on (a) determinism of the draw in `(length, seed)`
    and (b) the fact that the draw is a permutation of its input, both of
    which hold of the libraries and of this model.
  * External libraries with no algorithmic content in the repository
    (zlib compress/decompress, UTF-8 encode/decode, the AES block cipher,
    PBKDF2, and the exception-to-string formatter) are passed in as an
    explicit record of functions `Libs`; the contracts the code relies on
    are collected in `LibsSpec`.  Base64 and PKCS#7 padding are modelled
    concretely (`b64encodeBytes`, `padPkcs7`) because the envelope layout
    depends on them.
-/

/-- Python exception values that the modelled code can raise.  The source
raises `ValueError(f"...: {mode}")` for an unknown mode; the other
constructors stand for `IndexError`, `KeyError`, the binascii/zlib/unicode
errors raised by the decoding libraries, and the padding `ValueError`
raised by `Crypto.Util.Padding.unpad`. -/
inductive PyErr where
  | unknownMode (mode : String)
  | indexError
  | keyError
  | corruptData
  | badPadding
  | badUnicode
  deriving DecidableEq, Repr

/-- One step of a linear congruential generator; stands in for advancing the
state of the seeded pseudo-random generator. -/
def lcgNext (s : Nat) : Nat :=
  (s * 1103515245 + 12345) % 2147483648

/-- Remove the element at index `i` from a list, returning it and the
remainder.  Helper for the Fisher-Yates style shuffle. -/
def pickAt : Nat → List α → Option (α × List α)
  | _, [] => none
  | 0, x :: xs => some (x, xs)
  | i + 1, x :: xs =>
    match pickAt i xs with
    | none => none
    | some (y, ys) => some (y, x :: ys)

/-- Fuelled seeded shuffle: repeatedly extract the element at a
pseudo-random index.  Models the seeded uniform shuffle / sample-draw of
`random.shuffle`, `random.sample(range(n), n)` and
`numpy.random.permutation`. -/
def shuffleGo : Nat → Nat → List α → List α
  | 0, _, l => l
  | _ + 1, _, [] => []
  | f + 1, s, x :: xs =>
    match pickAt (s % (x :: xs).length) (x :: xs) with
    | none => []
    | some (y, ys) => y :: shuffleGo f (lcgNext s) ys

/-- Seeded shuffle of a list (deterministic in `(seed, input)`). -/
def shuffle (seed : Nat) (l : List α) : List α :=
  shuffleGo l.length seed l

theorem pickAt_perm : ∀ (i : Nat) (l : List α) (x : α) (l' : List α),
    pickAt i l = some (x, l') → l.Perm (x :: l') := by
  intro i
  induction i with
  | zero =>
    intro l x l' h
    cases l with
    | nil => simp [pickAt] at h
    | cons a as =>
      simp only [pickAt, Option.some.injEq, Prod.mk.injEq] at h
      obtain ⟨rfl, rfl⟩ := h
      exact List.Perm.refl _
  | succ i ih =>
    intro l x l' h
    cases l with
    | nil => simp [pickAt] at h
    | cons a as =>
      simp only [pickAt] at h
      cases hp : pickAt i as with
      | none => rw [hp] at h; simp at h
      | some p =>
        rw [hp] at h
        obtain ⟨y, ys⟩ := p
        simp only [Option.some.injEq, Prod.mk.injEq] at h
        obtain ⟨rfl, rfl⟩ := h
        exact ((ih as y ys hp).cons a).trans (List.Perm.swap y a ys)

theorem pickAt_isSome (i : Nat) (l : List α) (h : i < l.length) :
    (pickAt i l).isSome := by
  induction i generalizing l with
  | zero =>
    cases l with
    | nil => simp at h
    | cons a as => simp [pickAt]
  | succ i ih =>
    cases l with
    | nil => simp at h
    | cons a as =>
      simp only [pickAt]
      have h' : i < as.length := by simpa using Nat.lt_of_succ_lt_succ h
      have := ih as h'
      cases hp : pickAt i as with
      | none => rw [hp] at this; simp at this
      | some p => simp

theorem shuffleGo_perm : ∀ (f : Nat) (s : Nat) (l : List α),
    l.length ≤ f → (shuffleGo f s l).Perm l := by
  intro f
  induction f with
  | zero => intro s l _; exact List.Perm.refl _
  | succ f ih =>
    intro s l hl
    cases l with
    | nil => exact List.Perm.refl _
    | cons x xs =>
      simp only [shuffleGo]
      have hi : s % (x :: xs).length < (x :: xs).length :=
        Nat.mod_lt _ (by simp)
      have hs := pickAt_isSome (s % (x :: xs).length) (x :: xs) hi
      cases hp : pickAt (s % (x :: xs).length) (x :: xs) with
      | none => rw [hp] at hs; simp at hs
      | some p =>
        obtain ⟨y, ys⟩ := p
        have hperm := pickAt_perm _ _ _ _ hp
        have hlen : ys.length ≤ f := by
          have := hperm.length_eq
          simp only [List.length_cons] at this hl
          omega
        exact ((ih (lcgNext s) ys hlen).cons y).trans hperm.symm

theorem shuffle_perm (seed : Nat) (l : List α) : (shuffle seed l).Perm l :=
  shuffleGo_perm l.length seed l (Nat.le_refl _)

/-- `generate_permutation_key(length, seed)` from `confused_text.py`:
`random.seed(seed); random.sample(range(length), length)` — a seeded draw
of a permutation of `0..length-1`. -/
def generate_permutation_key (length seed : Nat) : List Nat :=
  shuffle seed (List.range length)

theorem generate_permutation_key_perm (length seed : Nat) :
    (generate_permutation_key length seed).Perm (List.range length) :=
  shuffle_perm seed (List.range length)

theorem generate_permutation_key_length (length seed : Nat) :
    (generate_permutation_key length seed).length = length := by
  have := (generate_permutation_key_perm length seed).length_eq
  simpa using this

theorem mem_generate_permutation_key (length seed : Nat) (j : Nat) :
    j ∈ generate_permutation_key length seed ↔ j < length := by
  rw [(generate_permutation_key_perm length seed).mem_iff, List.mem_range]

theorem generate_permutation_key_nodup (length seed : Nat) :
    (generate_permutation_key length seed).Nodup :=
  (generate_permutation_key_perm length seed).nodup_iff.mpr (List.nodup_range _)

/-- Code points of Python `string.ascii_letters`
(`ascii_lowercase + ascii_uppercase`). -/
def string_ascii_letters : List Nat :=
  ("abcdefghijklmnopqrstuvwxyzABCDEFGHIJKLMNOPQRSTUVWXYZ".data).map Char.toNat

/-- Code points of Python `string.digits`. -/
def string_digits : List Nat :=
  ("0123456789".data).map Char.toNat

/-- Code points of Python `string.punctuation`
(the 32 ASCII punctuation characters, given numerically). -/
def string_punctuation : List Nat :=
  [33, 34, 35, 36, 37, 38, 39, 40, 41, 42, 43, 44, 45, 46, 47,
   58, 59, 60, 61, 62, 63, 64,
   91, 92, 93, 94, 95, 96,
   123, 124, 125, 126]

/-- The 95-symbol alphabet `string.ascii_letters + string.digits +
string.punctuation + " "` used by `confused_text.py` and by
`basic_text_confusion` in `text_processor.py`. -/
def charsAlphabet : List Nat :=
  string_ascii_letters ++ string_digits ++ string_punctuation ++ [32]

/-- The 94-symbol alphabet (no space) used by `advanced_text_confusion`
in `text_processor.py`. -/
def mappingNoSpace : List Nat :=
  string_ascii_letters ++ string_digits ++ string_punctuation

theorem charsAlphabet_nodup : charsAlphabet.Nodup := by decide

/-- `dict(zip(keys, vals)).get(c, c)`: association-list lookup with the
character itself as the default. -/
def lookupDefault (m : List (Nat × Nat)) (c : Nat) : Nat :=
  (m.lookup c).getD c

theorem lookup_zip_of_not_mem {l1 l2 : List Nat} {c : Nat} (h : c ∉ l1) :
    (l1.zip l2).lookup c = none := by
  induction l1 generalizing l2 with
  | nil => simp
  | cons a as ih =>
    cases l2 with
    | nil => simp
    | cons b bs =>
      have hca : c ≠ a := fun hc => h (hc ▸ List.mem_cons_self a as)
      have hcas : c ∉ as := fun hc => h (List.mem_cons_of_mem a hc)
      have hba : (c == a) = false := beq_eq_false_iff_ne.mpr hca
      simp only [List.zip_cons_cons, List.lookup_cons, hba]
      exact ih hcas

/-- Looking a key up in a zipped association list and then looking the
result up in the reversed association list returns the key, provided both
columns have no duplicates. -/
theorem lookup_zip_round_trip {l1 l2 : List Nat} (h1 : l1.Nodup)
    (h2 : l2.Nodup) (hlen : l1.length = l2.length) {c : Nat} (hc : c ∈ l1) :
    ∃ d, (l1.zip l2).lookup c = some d ∧ d ∈ l2 ∧
      (l2.zip l1).lookup d = some c := by
  induction l1 generalizing l2 with
  | nil => simp at hc
  | cons a as ih =>
    cases l2 with
    | nil => simp at hlen
    | cons b bs =>
      simp only [List.nodup_cons] at h1 h2
      rcases List.mem_cons.mp hc with rfl | hcas
      · refine ⟨b, ?_, List.mem_cons_self b bs, ?_⟩
        · simp [List.lookup_cons]
        · simp [List.lookup_cons]
      · have hca : c ≠ a := fun hc' => h1.1 (hc' ▸ hcas)
        obtain ⟨d, hd1, hd2, hd3⟩ :=
          ih h1.2 h2.2 (by simpa using hlen) hcas
        refine ⟨d, ?_, List.mem_cons_of_mem b hd2, ?_⟩
        · have hba : (c == a) = false := beq_eq_false_iff_ne.mpr hca
          simp only [List.zip_cons_cons, List.lookup_cons, hba]
          exact hd1
        · have hdb : d ≠ b := fun hd' => h2.1 (hd' ▸ hd2)
          have hdbf : (d == b) = false := beq_eq_false_iff_ne.mpr hdb
          simp only [List.zip_cons_cons, List.lookup_cons, hdbf]
          exact hd3

/-- The base64 symbol with sextet value `s` (`A-Z`, `a-z`, `0-9`, `+`, `/`),
as a code point. -/
def sextetChar (s : Nat) : Nat :=
  if s < 26 then 65 + s
  else if s < 52 then 97 + (s - 26)
  else if s < 62 then 48 + (s - 52)
  else if s = 62 then 43
  else 47

/-- The sextet value of a base64 symbol code point, `none` for a code
point outside the base64 alphabet. -/
def charSextet (c : Nat) : Option Nat :=
  if 65 ≤ c ∧ c ≤ 90 then some (c - 65)
  else if 97 ≤ c ∧ c ≤ 122 then some (26 + (c - 97))
  else if 48 ≤ c ∧ c ≤ 57 then some (52 + (c - 48))
  else if c = 43 then some 62
  else if c = 47 then some 63
  else none

theorem charSextet_sextetChar : ∀ s < 64, charSextet (sextetChar s) = some s := by
  decide

theorem sextetChar_ne_pad : ∀ s < 64, sextetChar s ≠ 61 := by
  decide

/-- `base64.b64encode` on a byte list, producing the code points of the
base64 text (61 is the code point of the `=` padding symbol). -/
def b64encodeBytes : List Nat → List Nat
  | [] => []
  | [b1] => [sextetChar (b1 / 4), sextetChar (b1 % 4 * 16), 61, 61]
  | [b1, b2] =>
    [sextetChar (b1 / 4), sextetChar (b1 % 4 * 16 + b2 / 16),
     sextetChar (b2 % 16 * 4), 61]
  | b1 :: b2 :: b3 :: rest =>
    sextetChar (b1 / 4) :: sextetChar (b1 % 4 * 16 + b2 / 16) ::
    sextetChar (b2 % 16 * 4 + b3 / 64) :: sextetChar (b3 % 64) ::
    b64encodeBytes rest

/-- `base64.b64decode` on the code points of a base64 text: groups of four
symbols become three bytes, with `=` padding allowed only at the very end.
Returns `none` where the library raises (`binascii.Error`). -/
def b64decodeBytes : List Nat → Option (List Nat)
  | [] => some []
  | c1 :: c2 :: c3 :: c4 :: rest =>
    if c3 = 61 ∧ c4 = 61 ∧ rest = [] then
      match charSextet c1, charSextet c2 with
      | some s1, some s2 => some [s1 * 4 + s2 / 16]
      | _, _ => none
    else if c4 = 61 ∧ rest = [] then
      match charSextet c1, charSextet c2, charSextet c3 with
      | some s1, some s2, some s3 =>
        some [s1 * 4 + s2 / 16, s2 % 16 * 16 + s3 / 4]
      | _, _, _ => none
    else
      match charSextet c1, charSextet c2, charSextet c3, charSextet c4,
          b64decodeBytes rest with
      | some s1, some s2, some s3, some s4, some ds =>
        some ((s1 * 4 + s2 / 16) :: (s2 % 16 * 16 + s3 / 4) ::
              (s3 % 4 * 64 + s4) :: ds)
      | _, _, _, _, _ => none
  | _ => none

theorem b64decode_b64encode : ∀ (bs : List Nat), (∀ b ∈ bs, b < 256) →
    b64decodeBytes (b64encodeBytes bs) = some bs := by
  intro bs
  induction bs using b64encodeBytes.induct with
  | case1 => intro _; rfl
  | case2 b1 =>
    intro hb
    have h1 : b1 < 256 := hb b1 (by simp)
    simp only [b64encodeBytes, b64decodeBytes]
    rw [if_pos (by simp)]
    rw [charSextet_sextetChar (b1 / 4) (by omega),
        charSextet_sextetChar (b1 % 4 * 16) (by omega)]
    simp only [Option.some.injEq, List.cons.injEq, and_true]
    omega
  | case3 b1 b2 =>
    intro hb
    have h1 : b1 < 256 := hb b1 (by simp)
    have h2 : b2 < 256 := hb b2 (by simp)
    simp only [b64encodeBytes, b64decodeBytes]
    rw [if_neg (by
      intro hcon
      exact sextetChar_ne_pad (b2 % 16 * 4) (by omega) hcon.1)]
    rw [if_pos (by simp)]
    rw [charSextet_sextetChar (b1 / 4) (by omega),
        charSextet_sextetChar (b1 % 4 * 16 + b2 / 16) (by omega),
        charSextet_sextetChar (b2 % 16 * 4) (by omega)]
    simp only [Option.some.injEq, List.cons.injEq, and_true]
    omega
  | case4 b1 b2 b3 rest ih =>
    intro hb
    have h1 : b1 < 256 := hb b1 (by simp)
    have h2 : b2 < 256 := hb b2 (by simp)
    have h3 : b3 < 256 := hb b3 (by simp)
    have hrest : ∀ b ∈ rest, b < 256 := by
      intro b hbr
      exact hb b (by simp [hbr])
    simp only [b64encodeBytes, b64decodeBytes]
    rw [if_neg (by
      intro hcon
      exact sextetChar_ne_pad (b2 % 16 * 4 + b3 / 64) (by omega) hcon.1)]
    rw [if_neg (by
      intro hcon
      exact sextetChar_ne_pad (b3 % 64) (by omega) hcon.1)]
    rw [charSextet_sextetChar (b1 / 4) (by omega),
        charSextet_sextetChar (b1 % 4 * 16 + b2 / 16) (by omega),
        charSextet_sextetChar (b2 % 16 * 4 + b3 / 64) (by omega),
        charSextet_sextetChar (b3 % 64) (by omega),
        ih hrest]
    simp only [Option.some.injEq, List.cons.injEq]
    refine ⟨by omega, by omega, by omega, trivial⟩

/-- `Crypto.Util.Padding.pad` with PKCS#7 style: append `n` copies of the
byte `n`, where `n = block_size - len(data) % block_size`. -/
def padPkcs7 (data : List Nat) (block_size : Nat) : List Nat :=
  data ++ List.replicate (block_size - data.length % block_size)
    (block_size - data.length % block_size)

/-- `Crypto.Util.Padding.unpad` with PKCS#7 style: validate and strip the
padding, `none` where the library raises `ValueError`. -/
def unpadPkcs7 (data : List Nat) (block_size : Nat) : Option (List Nat) :=
  if data.length = 0 then none
  else if data.length % block_size ≠ 0 then none
  else if data.getLastD 0 < 1 ∨ data.getLastD 0 > min block_size data.length then
    none
  else if data.drop (data.length - data.getLastD 0) ≠
      List.replicate (data.getLastD 0) (data.getLastD 0) then none
  else some (data.take (data.length - data.getLastD 0))

theorem unpad_pad (data : List Nat) (block_size : Nat) (hbs : 0 < block_size) :
    unpadPkcs7 (padPkcs7 data block_size) block_size = some data := by
  have hmod : data.length % block_size < block_size := Nat.mod_lt _ hbs
  obtain ⟨m, hm⟩ : ∃ m, block_size - data.length % block_size = m + 1 :=
    ⟨block_size - data.length % block_size - 1, by omega⟩
  have hrep : List.replicate (m + 1) (m + 1) =
      List.replicate m (m + 1) ++ [m + 1] := by
    rw [List.replicate_succ']
  have hpad : padPkcs7 data block_size =
      (data ++ List.replicate m (m + 1)) ++ [m + 1] := by
    unfold padPkcs7
    rw [hm, hrep, List.append_assoc]
  rw [hpad]
  have hlast : ((data ++ List.replicate m (m + 1)) ++ [m + 1]).getLastD 0 =
      m + 1 := List.getLastD_concat _ _ _
  have hlen : ((data ++ List.replicate m (m + 1)) ++ [m + 1]).length =
      data.length + (m + 1) := by simp
  have hmod0 : (data.length + (m + 1)) % block_size = 0 := by
    have hdm := Nat.div_add_mod data.length block_size
    have hexp : block_size * (data.length / block_size + 1) =
        block_size * (data.length / block_size) + block_size := by ring
    have h2 : data.length + (m + 1) =
        block_size * (data.length / block_size + 1) := by omega
    rw [h2, Nat.mul_mod_right]
  unfold unpadPkcs7
  rw [hlast, hlen]
  rw [if_neg (by omega)]
  rw [if_neg (by
    simp only [ne_eq, Decidable.not_not]
    omega)]
  rw [if_neg (by omega)]
  have hdlen : data.length + (m + 1) - (m + 1) = data.length := by omega
  rw [hdlen]
  have happ : (data ++ List.replicate m (m + 1)) ++ [m + 1] =
      data ++ List.replicate (m + 1) (m + 1) := by
    rw [hrep, List.append_assoc]
  rw [happ]
  rw [List.drop_left' rfl, List.take_left' rfl]
  rw [if_neg (by simp [hm])]

/-- The external library functions the pipelines call, passed explicitly:
`zlib.compress`/`zlib.decompress`, `str.encode`/`bytes.decode` (UTF-8),
the AES-CBC block cipher of `Crypto.Cipher.AES` (keyed encrypt/decrypt on
a padded byte string with a given IV), PBKDF2-HMAC-SHA256 key derivation
(`hashlib.pbkdf2_hmac`, deterministic in password and salt), and the
`str(e)` formatter applied to a caught exception. -/
structure Libs where
  compress : List Nat → List Nat
  decompress : List Nat → Option (List Nat)
  utf8Encode : List Nat → List Nat
  utf8Decode : List Nat → Option (List Nat)
  aesEnc : List Nat → List Nat → List Nat → List Nat
  aesDec : List Nat → List Nat → List Nat → List Nat
  deriveKeyF : Nat → List Nat → List Nat
  errStr : PyErr → List Nat

/-- The contracts of the external libraries that the code relies on:
decompression inverts compression, UTF-8 decoding inverts encoding of any
valid string (all code points < 1114112), encoders emit bytes, and AES
decryption with the same key and IV inverts AES encryption. -/
structure LibsSpec (L : Libs) : Prop where
  decompress_compress : ∀ b, L.decompress (L.compress b) = some b
  utf8_round : ∀ s, (∀ c ∈ s, c < 1114112) →
    L.utf8Decode (L.utf8Encode s) = some s
  utf8_bytes : ∀ s, (∀ c ∈ s, c < 1114112) → ∀ b ∈ L.utf8Encode s, b < 256
  compress_bytes : ∀ x, (∀ b ∈ x, b < 256) → ∀ b ∈ L.compress x, b < 256
  aes_round : ∀ k iv m, L.aesDec k iv (L.aesEnc k iv m) = m
  aes_bytes : ∀ k iv m, (∀ b ∈ m, b < 256) → ∀ b ∈ L.aesEnc k iv m, b < 256

namespace ConfusedText

/-- `apply_character_substitution(text, seed)` from `confused_text.py`:
shuffle a copy of the alphabet with `random.seed(seed)`, zip original to
shuffled as a dict, and map each character through `dict.get(c, c)`.
Returns the confused text together with the map. -/
def apply_character_substitution (text : List Nat) (seed : Nat) :
    List Nat × List (Nat × Nat) :=
  let shuffled_chars := shuffle seed charsAlphabet
  let char_map := charsAlphabet.zip shuffled_chars
  (text.map (fun c => (char_map.lookup c).getD c), char_map)

/-- `reverse_character_substitution(text, char_map)` from
`confused_text.py`: invert the dict and map each character through it. -/
def reverse_character_substitution (text : List Nat)
    (char_map : List (Nat × Nat)) : List Nat :=
  let reverse_map := char_map.map (fun p => (p.2, p.1))
  text.map (fun c => (reverse_map.lookup c).getD c)

/-- `apply_position_permutation(text, seed)` from `confused_text.py`:
`permuted_chars = [char_list[i] for i in permutation_key]`. -/
def apply_position_permutation (text : List Nat) (seed : Nat) :
    List Nat × List Nat :=
  let permutation_key := generate_permutation_key text.length seed
  (permutation_key.map (fun i => text.getD i 0), permutation_key)

/-- The loop of `reverse_position_permutation`: for each
`(new_pos, orig_pos)` in `enumerate(permutation_key)` set
`restored_chars[orig_pos] = char_list[new_pos]`.  `i` is the running
`new_pos`; each slot of `slots` models one entry of the Python list of
strings (initially `''`, hence `[]`).  Both subscripts raise `IndexError`
when out of range. -/
def rppGo (text : List Nat) : Nat → List Nat → List (List Nat) →
    Except PyErr (List (List Nat))
  | _, [], slots => .ok slots
  | i, origPos :: rest, slots =>
    match text.get? i with
    | none => .error .indexError
    | some c =>
      if origPos < slots.length then
        rppGo text (i + 1) rest (slots.set origPos [c])
      else .error .indexError

/-- `reverse_position_permutation(text, permutation_key)` from
`confused_text.py`: fill a `['']*len(text)` buffer through the
permutation, then join. -/
def reverse_position_permutation (text : List Nat)
    (permutation_key : List Nat) : Except PyErr (List Nat) :=
  (rppGo text 0 permutation_key (List.replicate text.length [])).map
    List.flatten

/-- `apply_compression(text)` from `confused_text.py`:
`base64.b64encode(zlib.compress(text.encode())).decode()`. -/
def apply_compression (L : Libs) (text : List Nat) : List Nat :=
  b64encodeBytes (L.compress (L.utf8Encode text))

/-- `reverse_compression(compressed_text)` from `confused_text.py`:
`zlib.decompress(base64.b64decode(compressed_text)).decode()`; each
library failure raises. -/
def reverse_compression (L : Libs) (compressed_text : List Nat) :
    Except PyErr (List Nat) :=
  match b64decodeBytes compressed_text with
  | none => .error .corruptData
  | some decoded =>
    match L.decompress decoded with
    | none => .error .corruptData
    | some x =>
      match L.utf8Decode x with
      | none => .error .badUnicode
      | some t => .ok t

/-- The metadata dict returned by `apply_confusion` in `confused_text.py`:
`{'permutation_key': ...}` in basic mode,
`{'char_map': ..., 'permutation_key': ...}` in advanced mode. -/
inductive Metadata where
  | basic (permutation_key : List Nat)
  | advanced (char_map : List (Nat × Nat)) (permutation_key : List Nat)
  deriving DecidableEq, Repr

/-- `metadata['permutation_key']` (present in both shapes). -/
def Metadata.permutation_key : Metadata → List Nat
  | .basic pk => pk
  | .advanced _ pk => pk

/-- `metadata['char_map']`; a `KeyError` (`none`) on basic metadata. -/
def Metadata.char_mapGet : Metadata → Option (List (Nat × Nat))
  | .basic _ => none
  | .advanced cm _ => some cm

/-- `apply_confusion(text, key, mode)` from `confused_text.py`. -/
def apply_confusion (L : Libs) (text : List Nat) (key : Nat)
    (mode : String) : Except PyErr (List Nat × Metadata) :=
  if mode = "basic" then
    let r := apply_position_permutation text key
    .ok (r.1, .basic r.2)
  else if mode = "advanced" then
    let s := apply_character_substitution text key
    let p := apply_position_permutation s.1 (key + 1)
    .ok (apply_compression L p.1, .advanced s.2 p.2)
  else
    .error (.unknownMode mode)

/-- `restore_text(confused_text, key, metadata, mode)` from
`confused_text.py`.  The `key` parameter is accepted but, as in the
source, never consulted by the basic and advanced branches. -/
def restore_text (L : Libs) (confused_text : List Nat) (key : Nat)
    (metadata : Metadata) (mode : String) : Except PyErr (List Nat) :=
  if mode = "basic" then
    reverse_position_permutation confused_text metadata.permutation_key
  else if mode = "advanced" then
    match reverse_compression L confused_text with
    | .error e => .error e
    | .ok decompressed_text =>
      match reverse_position_permutation decompressed_text
          metadata.permutation_key with
      | .error e => .error e
      | .ok restored_permuted =>
        match metadata.char_mapGet with
        | none => .error .keyError
        | some cm => .ok (reverse_character_substitution restored_permuted cm)
  else
    .error (.unknownMode mode)

end ConfusedText

namespace ConfusedText

/-- Invariant of the restoration loop: when every subscript is in range,
the loop succeeds and the final buffer holds `v j` at every position `j`
written by the loop and is untouched elsewhere — provided every write to
position `j` writes the value `v j`. -/
theorem rppGo_spec (text : List Nat) (v : Nat → List Nat) :
    ∀ (ps : List Nat) (i : Nat) (slots : List (List Nat)),
    (∀ k, k < ps.length → i + k < text.length) →
    (∀ o ∈ ps, o < slots.length) →
    (∀ k, (hk : k < ps.length) → [text.getD (i + k) 0] = v (ps.getD k 0)) →
    ∃ s', rppGo text i ps slots = .ok s' ∧ s'.length = slots.length ∧
      (∀ j, j < slots.length →
        (j ∈ ps → s'.getD j [] = v j) ∧
        (j ∉ ps → s'.getD j [] = slots.getD j [])) := by
  intro ps
  induction ps with
  | nil =>
    intro i slots _ _ _
    exact ⟨slots, rfl, rfl, fun j _ => ⟨fun hj => absurd hj (by simp),
      fun _ => rfl⟩⟩
  | cons o rest ih =>
    intro i slots hnew horig hval
    have hi : i < text.length := by
      have := hnew 0 (by simp)
      simpa using this
    have hosl : o < slots.length := horig o (List.mem_cons_self o rest)
    have hget : text.get? i = some (text.getD i 0) := by
      rw [List.get?_eq_getElem?, List.getElem?_eq_getElem hi,
        List.getD_eq_getElem _ _ hi]
    simp only [rppGo, hget]
    rw [if_pos hosl]
    have hvo : [text.getD i 0] = v o := by
      have := hval 0 (by simp)
      simpa using this
    obtain ⟨s', hs1, hs2, hs3⟩ :=
      ih (i + 1) (slots.set o [text.getD i 0])
        (by
          intro k hk
          have := hnew (k + 1) (by simpa using Nat.succ_lt_succ hk)
          omega)
        (by
          intro o' ho'
          rw [List.length_set]
          exact horig o' (List.mem_cons_of_mem o ho'))
        (by
          intro k hk
          have := hval (k + 1) (by simpa using Nat.succ_lt_succ hk)
          simpa [Nat.add_assoc, Nat.add_comm 1 k] using this)
    refine ⟨s', hs1, by rw [hs2, List.length_set], ?_⟩
    intro j hj
    have hjset : j < (slots.set o [text.getD i 0]).length := by
      rw [List.length_set]; exact hj
    constructor
    · intro hjmem
      rcases List.mem_cons.mp hjmem with rfl | hjrest
      · by_cases hjr : j ∈ rest
        · exact (hs3 j hjset).1 hjr
        · rw [(hs3 j hjset).2 hjr]
          rw [List.getD_eq_getElem _ _ hjset]
          rw [List.getElem_set_self (by simpa using hj)]
          exact hvo
      · exact (hs3 j hjset).1 hjrest
    · intro hjmem
      have hjo : j ≠ o := fun hc => hjmem (hc ▸ List.mem_cons_self o rest)
      have hjr : j ∉ rest := fun hc => hjmem (List.mem_cons_of_mem o hc)
      rw [(hs3 j hjset).2 hjr]
      rw [List.getD_eq_getElem _ _ hjset, List.getD_eq_getElem _ _ hj]
      exact List.getElem_set_ne (fun hc => hjo hc.symm) _

theorem flatten_map_singleton (l : List Nat) :
    (l.map (fun a => [a])).flatten = l := by
  induction l with
  | nil => rfl
  | cons a as ih => simp [ih]

/-- Inverting a position permutation recovers the text it permuted:
core lemma, for any permutation `p` of `0..len(text)-1`. -/
theorem reverse_position_permutation_applied (text p : List Nat)
    (hlen : p.length = text.length)
    (hmem : ∀ j, j < text.length → j ∈ p)
    (hlt : ∀ o ∈ p, o < text.length) :
    reverse_position_permutation (p.map (fun i => text.getD i 0)) p =
      .ok text := by
  unfold reverse_position_permutation
  have hpermlen : (p.map (fun i => text.getD i 0)).length = text.length := by
    rw [List.length_map, hlen]
  rw [hpermlen]
  obtain ⟨s', hs1, hs2, hs3⟩ :=
    rppGo_spec (p.map (fun i => text.getD i 0)) (fun j => [text.getD j 0])
      p 0 (List.replicate text.length [])
      (by
        intro k hk
        rw [hpermlen]
        omega)
      (by
        intro o ho
        rw [List.length_replicate]
        exact hlt o ho)
      (by
        intro k hk
        rw [Nat.zero_add]
        congr 1
        rw [List.getD_eq_getElem _ _ (by rw [List.length_map]; exact hk)]
        rw [List.getElem_map]
        rw [List.getD_eq_getElem _ _ hk])
  rw [hs1]
  show Except.ok s'.flatten = Except.ok text
  congr 1
  have hslen : s'.length = text.length := by
    rw [hs2, List.length_replicate]
  have hsj : ∀ j, j < text.length → s'.getD j [] = [text.getD j 0] := by
    intro j hj
    exact (hs3 j (by rw [List.length_replicate]; exact hj)).1 (hmem j hj)
  have hform : s' = text.map (fun a => [a]) := by
    apply List.ext_getElem
    · rw [hslen, List.length_map]
    · intro j hj1 hj2
      have hjn : j < text.length := by rw [← hslen]; exact hj1
      have := hsj j hjn
      rw [List.getD_eq_getElem _ _ hj1] at this
      rw [this, List.getElem_map]
      congr 1
      rw [List.getD_eq_getElem _ _ hjn]
  rw [hform, flatten_map_singleton]

/-- Inverting a position permutation recovers the text it permuted. -/
theorem reverse_apply_position_permutation (text : List Nat) (seed : Nat) :
    reverse_position_permutation (apply_position_permutation text seed).1
      (apply_position_permutation text seed).2 = .ok text := by
  have h := reverse_position_permutation_applied text
    (generate_permutation_key text.length seed)
    (generate_permutation_key_length text.length seed)
    (fun j hj => (mem_generate_permutation_key text.length seed j).mpr hj)
    (fun o ho => (mem_generate_permutation_key text.length seed o).mp ho)
  exact h

theorem flatten_length_set (slots : List (List Nat)) :
    ∀ (o : Nat) (x : List Nat),
    ((slots.set o x).flatten).length ≤ slots.flatten.length + x.length := by
  induction slots with
  | nil => intro o x; simp
  | cons h t ih =>
    intro o x
    cases o with
    | zero => simp; omega
    | succ o =>
      simp only [List.set_cons_succ, List.flatten_cons, List.length_append]
      have := ih o x
      omega

/-- When the permutation fits inside the text and its entries are in
range, the restoration loop succeeds, and the joined result cannot be
longer than the number of loop iterations. -/
theorem rppGo_ok (text : List Nat) : ∀ (ps : List Nat) (i : Nat)
    (slots : List (List Nat)),
    i + ps.length ≤ text.length →
    (∀ o ∈ ps, o < slots.length) →
    ∃ s', rppGo text i ps slots = .ok s' ∧
      s'.flatten.length ≤ slots.flatten.length + ps.length := by
  intro ps
  induction ps with
  | nil =>
    intro i slots _ _
    exact ⟨slots, rfl, by simp⟩
  | cons o rest ih =>
    intro i slots hlen horig
    have hi : i < text.length := by
      simp only [List.length_cons] at hlen
      omega
    have hget : text.get? i = some (text.getD i 0) := by
      rw [List.get?_eq_getElem?, List.getElem?_eq_getElem hi,
        List.getD_eq_getElem _ _ hi]
    simp only [rppGo, hget]
    rw [if_pos (horig o (List.mem_cons_self o rest))]
    obtain ⟨s', hs1, hs2⟩ := ih (i + 1) (slots.set o [text.getD i 0])
      (by simp only [List.length_cons] at hlen; omega)
      (by
        intro o' ho'
        rw [List.length_set]
        exact horig o' (List.mem_cons_of_mem o ho'))
    refine ⟨s', hs1, ?_⟩
    have := flatten_length_set slots o [text.getD i 0]
    simp only [List.length_cons, List.length_nil] at this ⊢
    omega

/-- When the permutation is strictly longer than the text, the
restoration loop reaches an out-of-range read and raises `IndexError`. -/
theorem rppGo_err (text : List Nat) : ∀ (ps : List Nat) (i : Nat)
    (slots : List (List Nat)),
    i ≤ text.length → text.length < i + ps.length →
    rppGo text i ps slots = .error .indexError := by
  intro ps
  induction ps with
  | nil =>
    intro i slots h1 h2
    simp only [List.length_nil] at h2
    omega
  | cons o rest ih =>
    intro i slots h1 h2
    by_cases hi : i < text.length
    · have hget : text.get? i = some (text.getD i 0) := by
        rw [List.get?_eq_getElem?, List.getElem?_eq_getElem hi,
          List.getD_eq_getElem _ _ hi]
      simp only [rppGo, hget]
      by_cases ho : o < slots.length
      · rw [if_pos ho]
        apply ih
        · omega
        · simp only [List.length_cons] at h2
          omega
      · rw [if_neg ho]
    · have hie : i = text.length := by omega
      have hget : text.get? i = none := by
        rw [List.get?_eq_getElem?, List.getElem?_eq_none]
        omega
      simp only [rppGo, hget]

theorem map_swap_zip (l1 l2 : List Nat) :
    (l1.zip l2).map (fun p => (p.2, p.1)) = l2.zip l1 := by
  induction l1 generalizing l2 with
  | nil => simp
  | cons a as ih =>
    cases l2 with
    | nil => simp
    | cons b bs => simp [ih]

/-- Substituting one character forward and then through the reversed map
is the identity, for characters inside and outside the alphabet alike. -/
theorem substitution_char_round_trip (seed : Nat) (c : Nat) :
    ((((charsAlphabet.zip (shuffle seed charsAlphabet)).map
        (fun p => (p.2, p.1))).lookup
      (((charsAlphabet.zip (shuffle seed charsAlphabet)).lookup c).getD c)).getD
      (((charsAlphabet.zip (shuffle seed charsAlphabet)).lookup c).getD c)) =
      c := by
  have hperm := shuffle_perm seed charsAlphabet
  have hnodup2 : (shuffle seed charsAlphabet).Nodup :=
    hperm.nodup_iff.mpr charsAlphabet_nodup
  have hlen : charsAlphabet.length = (shuffle seed charsAlphabet).length :=
    hperm.length_eq.symm
  rw [map_swap_zip]
  by_cases hc : c ∈ charsAlphabet
  · obtain ⟨d, hd1, _, hd3⟩ :=
      lookup_zip_round_trip charsAlphabet_nodup hnodup2 hlen hc
    rw [hd1]
    simp only [Option.getD_some]
    rw [hd3]
    rfl
  · rw [lookup_zip_of_not_mem hc]
    simp only [Option.getD_none]
    have hcs : c ∉ shuffle seed charsAlphabet := fun hmem =>
      hc (hperm.mem_iff.mp hmem)
    rw [lookup_zip_of_not_mem hcs]
    rfl

/-- Reversing a character substitution with the map it returned is the
identity on whole texts. -/
theorem reverse_apply_character_substitution (text : List Nat) (seed : Nat) :
    reverse_character_substitution
      (apply_character_substitution text seed).1
      (apply_character_substitution text seed).2 = text := by
  show ((text.map _).map _) = text
  rw [List.map_map]
  have : ∀ c ∈ text,
      (Function.comp (fun c => (((charsAlphabet.zip
          (shuffle seed charsAlphabet)).map (fun p => (p.2, p.1))).lookup
          c).getD c)
        (fun c => (((charsAlphabet.zip
          (shuffle seed charsAlphabet)).lookup c).getD c))) c = c := by
    intro c _
    exact substitution_char_round_trip seed c
  calc text.map _ = text.map id := List.map_congr_left this
    _ = text := List.map_id text

theorem lookup_zip_mem_values : ∀ (l1 l2 : List Nat) (c d : Nat),
    (l1.zip l2).lookup c = some d → d ∈ l2 := by
  intro l1
  induction l1 with
  | nil => intro l2 c d h; simp at h
  | cons a as ih =>
    intro l2 c d h
    cases l2 with
    | nil => simp at h
    | cons b bs =>
      simp only [List.zip_cons_cons, List.lookup_cons] at h
      cases hca : c == a with
      | true =>
        rw [hca] at h
        simp only [Option.some.injEq] at h
        exact h ▸ List.mem_cons_self b bs
      | false =>
        rw [hca] at h
        exact List.mem_cons_of_mem b (ih bs c d h)

theorem charsAlphabet_lt : ∀ x ∈ charsAlphabet, x < 1114112 := by decide

/-- Character substitution preserves code-point validity. -/
theorem apply_character_substitution_valid (text : List Nat) (seed : Nat)
    (ht : ∀ c ∈ text, c < 1114112) :
    ∀ c ∈ (ConfusedText.apply_character_substitution text seed).1,
      c < 1114112 := by
  intro c hc
  simp only [ConfusedText.apply_character_substitution, List.mem_map] at hc
  obtain ⟨a, ha, rfl⟩ := hc
  cases hl : (charsAlphabet.zip (shuffle seed charsAlphabet)).lookup a with
  | none => simpa [hl] using ht a ha
  | some d =>
    have hd : d ∈ shuffle seed charsAlphabet := lookup_zip_mem_values _ _ _ _ hl
    have : d ∈ charsAlphabet := (shuffle_perm seed charsAlphabet).mem_iff.mp hd
    simpa [hl] using charsAlphabet_lt d this

/-- Position permutation preserves code-point validity. -/
theorem apply_position_permutation_valid (text : List Nat) (seed : Nat)
    (ht : ∀ c ∈ text, c < 1114112) :
    ∀ c ∈ (ConfusedText.apply_position_permutation text seed).1,
      c < 1114112 := by
  intro c hc
  simp only [ConfusedText.apply_position_permutation, List.mem_map] at hc
  obtain ⟨i, _, rfl⟩ := hc
  by_cases hi : i < text.length
  · rw [List.getD_eq_getElem _ _ hi]
    exact ht _ (List.getElem_mem hi)
  · rw [List.getD_eq_getElem?_getD, List.getElem?_eq_none (by omega)]
    simp

/-- Round trip of basic-mode obfuscation in `confused_text.py`:
obfuscate with `apply_confusion`, restore with the returned metadata. -/
theorem basic_round_trip (L : Libs) (text : List Nat) (key : Nat) :
    (apply_confusion L text key "basic").bind
      (fun r => restore_text L r.1 key r.2 "basic") = .ok text := by
  have hred : (apply_confusion L text key "basic").bind
      (fun r => restore_text L r.1 key r.2 "basic") =
      reverse_position_permutation (apply_position_permutation text key).1
        (apply_position_permutation text key).2 := by
    simp [apply_confusion, restore_text, Except.bind, Metadata.permutation_key]
  rw [hred]
  exact reverse_apply_position_permutation text key

/-- Round trip of advanced-mode obfuscation in `confused_text.py`. -/
theorem advanced_round_trip (L : Libs) (hL : LibsSpec L) (text : List Nat)
    (key : Nat) (ht : ∀ c ∈ text, c < 1114112) :
    (apply_confusion L text key "advanced").bind
      (fun r => restore_text L r.1 key r.2 "advanced") = .ok text := by
  have hsvalid : ∀ c ∈ (apply_character_substitution text key).1,
      c < 1114112 := apply_character_substitution_valid text key ht
  have hpvalid : ∀ c ∈ (apply_position_permutation
      (apply_character_substitution text key).1 (key + 1)).1, c < 1114112 :=
    apply_position_permutation_valid _ _ hsvalid
  have hrc : reverse_compression L (apply_compression L
      (apply_position_permutation
        (apply_character_substitution text key).1 (key + 1)).1) = .ok
      (apply_position_permutation
        (apply_character_substitution text key).1 (key + 1)).1 := by
    unfold apply_compression reverse_compression
    simp only [b64decode_b64encode _
        (hL.compress_bytes _ (hL.utf8_bytes _ hpvalid)),
      hL.decompress_compress, hL.utf8_round _ hpvalid]
  have hrp := reverse_apply_position_permutation
    (apply_character_substitution text key).1 (key + 1)
  have hrs := reverse_apply_character_substitution text key
  have h1 : apply_confusion L text key "advanced" = .ok
      (apply_compression L (apply_position_permutation
        (apply_character_substitution text key).1 (key + 1)).1,
       .advanced (apply_character_substitution text key).2
        (apply_position_permutation
          (apply_character_substitution text key).1 (key + 1)).2) := rfl
  rw [h1]
  show restore_text L (apply_compression L (apply_position_permutation
        (apply_character_substitution text key).1 (key + 1)).1) key
      (.advanced (apply_character_substitution text key).2
        (apply_position_permutation
          (apply_character_substitution text key).1 (key + 1)).2)
      "advanced" = .ok text
  unfold restore_text
  rw [if_neg (by decide), if_pos rfl]
  simp only [Metadata.permutation_key, Metadata.char_mapGet, hrc, hrp, hrs]

end ConfusedText

/-- Code points of a Lean string literal; convenience for stating concrete
inputs. -/
def strCodes (s : String) : List Nat :=
  s.data.map Char.toNat

/-- `numpy.argsort` on the arrays this code applies it to.  The code only
ever argsorts a permutation of `0..n-1` (all entries distinct); for such an
array the stable sorting indices are exactly the positions of the values
`0, 1, 2, ...` in order, which is what this computes. -/
def argsort (p : List Nat) : List Nat :=
  (List.range p.length).map (fun k => p.indexOf k)

namespace TextProcessor

/-- `basic_text_confusion(text, key)` from `text_processor.py`: character
substitution over the 95-symbol alphabet seeded with `key`, followed by a
position permutation drawn from `numpy.random.seed(key)`. -/
def basic_text_confusion (text : List Nat) (key : Nat) :
    List Nat × List Nat :=
  let shuffled_mapping := shuffle key charsAlphabet
  let char_map := charsAlphabet.zip shuffled_mapping
  let confused_text := text.map (fun c => (char_map.lookup c).getD c)
  let permutation := shuffle key (List.range confused_text.length)
  (permutation.map (fun i => confused_text.getD i 0), permutation)

/-- `advanced_text_confusion(text, key)` from `text_processor.py`: base64
encoding first, then character substitution over the 94-symbol alphabet
(no space), then a position permutation seeded with the same `key`. -/
def advanced_text_confusion (L : Libs) (text : List Nat) (key : Nat) :
    List Nat × List Nat :=
  let encoded := b64encodeBytes (L.utf8Encode text)
  let char_map := mappingNoSpace.zip (shuffle key mappingNoSpace)
  let replaced_text := encoded.map (fun c => (char_map.lookup c).getD c)
  let permutation := shuffle key (List.range replaced_text.length)
  (permutation.map (fun i => replaced_text.getD i 0), permutation)

/-- `basic_text_restore(confused_text, key, permutation)` from
`text_processor.py`: index by `argsort(permutation)`, then reverse the
character substitution re-derived from `key`.  (The numpy re-draw of
`original_permutation` in the source is dead code and has no effect.) -/
def basic_text_restore (confused_text : List Nat) (key : Nat)
    (permutation : List Nat) : List Nat :=
  let inverse_permutation := argsort permutation
  let restored_chars :=
    inverse_permutation.map (fun i => confused_text.getD i 0)
  let shuffled_mapping := shuffle key charsAlphabet
  let reverse_map := shuffled_mapping.zip charsAlphabet
  restored_chars.map (fun c => (reverse_map.lookup c).getD c)

/-- `advanced_text_restore(confused_text, key, permutation)` from
`text_processor.py`.  On a base64 (or UTF-8) failure the `except:` branch
returns the fixed message string instead of raising. -/
def advanced_text_restore (L : Libs) (confused_text : List Nat) (key : Nat)
    (permutation : List Nat) : List Nat :=
  let inverse_permutation := argsort permutation
  let restored_text :=
    inverse_permutation.map (fun i => confused_text.getD i 0)
  let reverse_map := (shuffle key mappingNoSpace).zip mappingNoSpace
  let replaced_text :=
    restored_text.map (fun c => (reverse_map.lookup c).getD c)
  match b64decodeBytes replaced_text with
  | none => strCodes "解码错误 - 请检查密钥是否正确"
  | some decoded_bytes =>
    match L.utf8Decode decoded_bytes with
    | none => strCodes "解码错误 - 请检查密钥是否正确"
    | some t => t

/-- `aes_encrypt(text, password)` from `text_processor.py`.  The random
salt and IV drawn from `os.urandom` are passed in explicitly; the PBKDF2
derivation and the AES-CBC cipher come from `Libs`.  Returns
`base64(salt || iv || ciphertext)` with PKCS#7-padded plaintext. -/
def aes_encrypt (L : Libs) (text : List Nat) (password : Nat)
    (salt iv : List Nat) : List Nat :=
  let key := L.deriveKeyF password salt
  let padded_text := padPkcs7 (L.utf8Encode text) 16
  let ciphertext := L.aesEnc key iv padded_text
  b64encodeBytes (salt ++ iv ++ ciphertext)

/-- The prefix of the message `f"解密错误: {str(e)}"` that `aes_decrypt`
returns when any step of decryption raises. -/
def decryptErrorPrefix : List Nat :=
  strCodes "解密错误: "

/-- `aes_decrypt(encrypted_text, password)` from `text_processor.py`:
base64-decode, slice out salt (16 bytes), IV (16 bytes) and ciphertext,
derive the key, decrypt, unpad, decode — all inside `try:`; any failure is
caught and returned as the formatted string `"解密错误: ..."` through the
ordinary return value. -/
def aes_decrypt (L : Libs) (encrypted_text : List Nat) (password : Nat) :
    List Nat :=
  match b64decodeBytes encrypted_text with
  | none => decryptErrorPrefix ++ L.errStr .corruptData
  | some combined =>
    let salt := combined.take 16
    let iv := (combined.drop 16).take 16
    let ciphertext := combined.drop 32
    let key := L.deriveKeyF password salt
    let decrypted_padded := L.aesDec key iv ciphertext
    match unpadPkcs7 decrypted_padded 16 with
    | none => decryptErrorPrefix ++ L.errStr .badPadding
    | some decrypted =>
      match L.utf8Decode decrypted with
      | none => decryptErrorPrefix ++ L.errStr .badUnicode
      | some t => t

/-- `apply_text_confusion(text, key, mode)` from `text_processor.py`.
Basic and advanced modes return `(confused, permutation)`; AES mode
returns only the envelope (no permutation). -/
def apply_text_confusion (L : Libs) (text : List Nat) (key : Nat)
    (salt iv : List Nat) (mode : String) :
    Except PyErr (List Nat × Option (List Nat)) :=
  if mode = "basic" then
    let r := basic_text_confusion text key
    .ok (r.1, some r.2)
  else if mode = "advanced" then
    let r := advanced_text_confusion L text key
    .ok (r.1, some r.2)
  else if mode = "aes" then
    .ok (aes_encrypt L text key salt iv, none)
  else
    .error (.unknownMode mode)

/-- `restore_text(confused_text, key, permutation, mode)` from
`text_processor.py`. -/
def restore_text (L : Libs) (confused_text : List Nat) (key : Nat)
    (permutation : List Nat) (mode : String) : Except PyErr (List Nat) :=
  if mode = "basic" then
    .ok (basic_text_restore confused_text key permutation)
  else if mode = "advanced" then
    .ok (advanced_text_restore L confused_text key permutation)
  else if mode = "aes" then
    .ok (aes_decrypt L confused_text key)
  else
    .error (.unknownMode mode)

end TextProcessor

theorem padPkcs7_bytes (x : List Nat) (hx : ∀ b ∈ x, b < 256) :
    ∀ b ∈ padPkcs7 x 16, b < 256 := by
  intro b hb
  unfold padPkcs7 at hb
  rcases List.mem_append.mp hb with h | h
  · exact hx b h
  · have := List.eq_of_mem_replicate h
    omega

namespace TextProcessor

/-- AES envelope round trip: decrypting an `aes_encrypt` envelope with the
same password recovers the plaintext. -/
theorem aes_round_trip (L : Libs) (hL : LibsSpec L) (text : List Nat)
    (password : Nat) (salt iv : List Nat)
    (hsalt : salt.length = 16) (hiv : iv.length = 16)
    (hsb : ∀ b ∈ salt, b < 256) (hib : ∀ b ∈ iv, b < 256)
    (ht : ∀ c ∈ text, c < 1114112) :
    aes_decrypt L (aes_encrypt L text password salt iv) password = text := by
  have hpadded : ∀ b ∈ padPkcs7 (L.utf8Encode text) 16, b < 256 :=
    padPkcs7_bytes _ (hL.utf8_bytes _ ht)
  have hct : ∀ b ∈ L.aesEnc (L.deriveKeyF password salt) iv
      (padPkcs7 (L.utf8Encode text) 16), b < 256 :=
    hL.aes_bytes _ _ _ hpadded
  have hcombined : ∀ b ∈ salt ++ iv ++ L.aesEnc (L.deriveKeyF password salt)
      iv (padPkcs7 (L.utf8Encode text) 16), b < 256 := by
    intro b hb
    rcases List.mem_append.mp hb with h | h
    · rcases List.mem_append.mp h with h' | h'
      · exact hsb b h'
      · exact hib b h'
    · exact hct b h
  have hassoc : salt ++ iv ++ L.aesEnc (L.deriveKeyF password salt) iv
        (padPkcs7 (L.utf8Encode text) 16) =
      salt ++ (iv ++ L.aesEnc (L.deriveKeyF password salt) iv
        (padPkcs7 (L.utf8Encode text) 16)) := List.append_assoc _ _ _
  have htake : (salt ++ iv ++ L.aesEnc (L.deriveKeyF password salt) iv
      (padPkcs7 (L.utf8Encode text) 16)).take 16 = salt := by
    rw [hassoc]
    exact List.take_left' hsalt
  have hdrop16 : (salt ++ iv ++ L.aesEnc (L.deriveKeyF password salt) iv
      (padPkcs7 (L.utf8Encode text) 16)).drop 16 =
      iv ++ L.aesEnc (L.deriveKeyF password salt) iv
        (padPkcs7 (L.utf8Encode text) 16) := by
    rw [hassoc]
    exact List.drop_left' hsalt
  have htakeiv : ((salt ++ iv ++ L.aesEnc (L.deriveKeyF password salt) iv
      (padPkcs7 (L.utf8Encode text) 16)).drop 16).take 16 = iv := by
    rw [hdrop16]
    exact List.take_left' hiv
  have hdrop32 : (salt ++ iv ++ L.aesEnc (L.deriveKeyF password salt) iv
      (padPkcs7 (L.utf8Encode text) 16)).drop 32 =
      L.aesEnc (L.deriveKeyF password salt) iv
        (padPkcs7 (L.utf8Encode text) 16) := by
    have h32 : (32 : Nat) = 16 + 16 := rfl
    rw [h32, ← List.drop_drop, hdrop16]
    exact List.drop_left' hiv
  unfold aes_encrypt aes_decrypt
  simp only [b64decode_b64encode _ hcombined, htake, htakeiv, hdrop32,
    hL.aes_round, unpad_pad _ 16 (by omega), hL.utf8_round _ ht]

end TextProcessor

/-- An RGB8 pixel: the `(R, G, B)` sample triple of one pixel of the
flattened `rows*cols × 3` buffer.  The reshape between `(h, w, 3)` and
`(h*w, 3)` is the identity on the underlying pixel sequence and is not
modelled separately. -/
abbrev Pixel := Nat × Nat × Nat

/-- Indexing a list of values by `argsort p` after indexing by `p` is the
identity, for `p` a permutation of `0..n-1` (the composition
`flattened[permutation]` then `flattened[argsort(permutation)]` of the
source). -/
theorem map_argsort_map_perm {α : Type} (d : α) (vals : List α)
    (p : List Nat) (hlen : p.length = vals.length)
    (hmem : ∀ j, j < vals.length → j ∈ p) :
    (argsort p).map
      (fun i => (p.map (fun k => vals.getD k d)).getD i d) = vals := by
  apply List.ext_getElem
  · simp [argsort, hlen]
  · intro j hj1 hj2
    have hjv : j < vals.length := hj2
    have hjp : j ∈ p := hmem j hjv
    have hidx : p.indexOf j < p.length := List.indexOf_lt_length.mpr hjp
    have hjplen : j < p.length := by rw [hlen]; exact hjv
    rw [List.getElem_map]
    simp only [argsort, List.getElem_map, List.getElem_range]
    rw [List.getD_eq_getElem _ _ (by rw [List.length_map]; exact hidx)]
    rw [List.getElem_map]
    have hpj := List.getElem_indexOf hidx
    rw [hpj]
    exact List.getD_eq_getElem _ _ hjv

namespace ConfusedImage

/-- `apply_confusion(pixels, key)` from `confused_image.py`: seeded pixel
permutation, plane split, per-channel XOR masks
`(key+37)%256`, `(key+117)%256`, `(key+231)%256` on R, G, B, and plane
restack in the rotated order `(G, B, R)`. -/
def apply_confusion (pixels : List Pixel) (key : Nat) :
    List Pixel × List Nat :=
  let permutation := shuffle key (List.range pixels.length)
  let shuffled := permutation.map (fun i => pixels.getD i (0, 0, 0))
  let r := shuffled.map (fun p => p.1)
  let g := shuffled.map (fun p => p.2.1)
  let b := shuffled.map (fun p => p.2.2)
  let r_key := (key + 37) % 256
  let g_key := (key + 117) % 256
  let b_key := (key + 231) % 256
  let r_confused := r.map (fun x => x ^^^ r_key)
  let g_confused := g.map (fun x => x ^^^ g_key)
  let b_confused := b.map (fun x => x ^^^ b_key)
  (g_confused.zip (b_confused.zip r_confused), permutation)

/-- `restore_image(pixels, key, permutation)` from `confused_image.py`:
split the `(G, B, R)` planes, XOR-unmask, restack `(R, G, B)`, and apply
the inverse permutation computed by `numpy.argsort`. -/
def restore_image (pixels : List Pixel) (key : Nat)
    (permutation : List Nat) : List Pixel :=
  let g_confused := pixels.map (fun p => p.1)
  let b_confused := pixels.map (fun p => p.2.1)
  let r_confused := pixels.map (fun p => p.2.2)
  let r_key := (key + 37) % 256
  let g_key := (key + 117) % 256
  let b_key := (key + 231) % 256
  let r := r_confused.map (fun x => x ^^^ r_key)
  let g := g_confused.map (fun x => x ^^^ g_key)
  let b := b_confused.map (fun x => x ^^^ b_key)
  let restored_shuffled := r.zip (g.zip b)
  let inverse_permutation := argsort permutation
  inverse_permutation.map (fun i => restored_shuffled.getD i (0, 0, 0))

theorem fst_zip3 (a b c : List Nat) (hab : a.length = b.length)
    (hbc : b.length = c.length) :
    ((a.zip (b.zip c)).map (fun p => p.1) = a) ∧
    ((a.zip (b.zip c)).map (fun p => p.2.1) = b) ∧
    ((a.zip (b.zip c)).map (fun p => p.2.2) = c) := by
  induction a generalizing b c with
  | nil =>
    cases b with
    | nil =>
      cases c with
      | nil => simp
      | cons _ _ => simp at hbc
    | cons _ _ => simp at hab
  | cons x xs ih =>
    cases b with
    | nil => simp at hab
    | cons y ys =>
      cases c with
      | nil => simp at hbc
      | cons z zs =>
        have := ih ys zs (by simpa using hab) (by simpa using hbc)
        simp only [List.zip_cons_cons, List.map_cons]
        exact ⟨by rw [this.1], by rw [this.2.1], by rw [this.2.2]⟩

theorem zip_planes (l : List Pixel) :
    (l.map (fun p => p.1)).zip
      ((l.map (fun p => p.2.1)).zip (l.map (fun p => p.2.2))) = l := by
  induction l with
  | nil => simp
  | cons p ps ih => simp [ih]

theorem map_xor_xor (l : List Nat) (k : Nat) :
    (l.map (fun x => x ^^^ k)).map (fun x => x ^^^ k) = l := by
  rw [List.map_map]
  have : ∀ x ∈ l, (Function.comp (fun x => x ^^^ k) (fun x => x ^^^ k)) x = x := by
    intro x _
    show x ^^^ k ^^^ k = x
    rw [Nat.xor_assoc, Nat.xor_self, Nat.xor_zero]
  calc l.map _ = l.map id := List.map_congr_left this
    _ = l := List.map_id l

theorem zip_map_triple {α : Type} (l : List α) (f g h : α → Nat) :
    (l.map f).zip ((l.map g).zip (l.map h)) =
      l.map (fun x => (f x, g x, h x)) := by
  induction l with
  | nil => simp
  | cons x xs ih => simp [ih]

/-- The confused pixel buffer, written pixel-wise: each output pixel is
`(G^gmask, B^bmask, R^rmask)` of the corresponding permuted input pixel. -/
theorem apply_confusion_fst (pixels : List Pixel) (key : Nat) :
    (apply_confusion pixels key).1 =
      ((shuffle key (List.range pixels.length)).map
        (fun i => pixels.getD i (0, 0, 0))).map
        (fun q => (q.2.1 ^^^ (key + 117) % 256,
                   q.2.2 ^^^ (key + 231) % 256,
                   q.1 ^^^ (key + 37) % 256)) := by
  show ((((shuffle key (List.range pixels.length)).map
      (fun i => pixels.getD i (0, 0, 0))).map (fun p => p.2.1)).map
        (fun x => x ^^^ (key + 117) % 256)).zip
      (((((shuffle key (List.range pixels.length)).map
        (fun i => pixels.getD i (0, 0, 0))).map (fun p => p.2.2)).map
          (fun x => x ^^^ (key + 231) % 256)).zip
       ((((shuffle key (List.range pixels.length)).map
        (fun i => pixels.getD i (0, 0, 0))).map (fun p => p.1)).map
          (fun x => x ^^^ (key + 37) % 256))) = _
  simp only [List.map_map]
  rw [zip_map_triple]
  rfl

/-- The restored buffer, written pixel-wise. -/
theorem restore_image_eq (pixels : List Pixel) (key : Nat)
    (permutation : List Nat) :
    restore_image pixels key permutation =
      (argsort permutation).map (fun i =>
        (pixels.map (fun q => (q.2.2 ^^^ (key + 37) % 256,
                               q.1 ^^^ (key + 117) % 256,
                               q.2.1 ^^^ (key + 231) % 256))).getD
          i (0, 0, 0)) := by
  show (argsort permutation).map (fun i =>
      (((pixels.map (fun p => p.2.2)).map
          (fun x => x ^^^ (key + 37) % 256)).zip
        (((pixels.map (fun p => p.1)).map
          (fun x => x ^^^ (key + 117) % 256)).zip
         ((pixels.map (fun p => p.2.1)).map
          (fun x => x ^^^ (key + 231) % 256)))).getD i (0, 0, 0)) = _
  rw [List.map_map, List.map_map, List.map_map, zip_map_triple]
  rfl

/-- C2 core: restoring the confused buffer with the same key and the
returned permutation is the identity, pixel for pixel. -/
theorem image_round_trip (pixels : List Pixel) (key : Nat) :
    restore_image (apply_confusion pixels key).1 key
      (apply_confusion pixels key).2 = pixels := by
  have h2 : (apply_confusion pixels key).2 =
      shuffle key (List.range pixels.length) := rfl
  rw [restore_image_eq, apply_confusion_fst, h2]
  rw [List.map_map]
  have hcomp : ∀ q : Pixel,
      (Function.comp
        (fun q : Pixel => (q.2.2 ^^^ (key + 37) % 256,
                           q.1 ^^^ (key + 117) % 256,
                           q.2.1 ^^^ (key + 231) % 256))
        (fun q : Pixel => (q.2.1 ^^^ (key + 117) % 256,
                           q.2.2 ^^^ (key + 231) % 256,
                           q.1 ^^^ (key + 37) % 256))) q = q := by
    intro q
    obtain ⟨a, b, c⟩ := q
    simp only [Function.comp_apply]
    rw [Nat.xor_assoc, Nat.xor_self, Nat.xor_zero,
        Nat.xor_assoc, Nat.xor_self, Nat.xor_zero,
        Nat.xor_assoc, Nat.xor_self, Nat.xor_zero]
  have hmapid : ((shuffle key (List.range pixels.length)).map
      (fun i => pixels.getD i (0, 0, 0))).map
        (Function.comp
          (fun q : Pixel => (q.2.2 ^^^ (key + 37) % 256,
                             q.1 ^^^ (key + 117) % 256,
                             q.2.1 ^^^ (key + 231) % 256))
          (fun q : Pixel => (q.2.1 ^^^ (key + 117) % 256,
                             q.2.2 ^^^ (key + 231) % 256,
                             q.1 ^^^ (key + 37) % 256))) =
      (shuffle key (List.range pixels.length)).map
        (fun i => pixels.getD i (0, 0, 0)) := by
    calc ((shuffle key (List.range pixels.length)).map
        (fun i => pixels.getD i (0, 0, 0))).map _ =
        ((shuffle key (List.range pixels.length)).map
          (fun i => pixels.getD i (0, 0, 0))).map id :=
          List.map_congr_left (fun q _ => hcomp q)
      _ = _ := List.map_id _
  rw [hmapid]
  apply map_argsort_map_perm
  · exact ((shuffle_perm key (List.range pixels.length)).length_eq).trans
      (List.length_range _)
  · intro j hj
    rw [(shuffle_perm key (List.range pixels.length)).mem_iff]
    exact List.mem_range.mpr hj

end ConfusedImage

/-- A concrete instantiation of the external string-to-bytes codec used to
discharge the `Libs` hypotheses on concrete inputs: each code point is
spread over three bytes, little-endian. -/
def mockUtf8Encode (s : List Nat) : List Nat :=
  s.flatMap (fun c => [c % 256, c / 256 % 256, c / 65536 % 256])

/-- Inverse of `mockUtf8Encode` on valid strings. -/
def mockUtf8Decode : List Nat → Option (List Nat)
  | [] => some []
  | b0 :: b1 :: b2 :: rest =>
    (mockUtf8Decode rest).map (fun ds => (b0 + 256 * b1 + 65536 * b2) :: ds)
  | _ => none

/-- A concrete `Libs` record (identity compression and cipher, three-byte
codec) satisfying `LibsSpec`; used by witnesses and counterexamples. -/
def mockLibs : Libs where
  compress := id
  decompress := some
  utf8Encode := mockUtf8Encode
  utf8Decode := mockUtf8Decode
  aesEnc := fun _ _ m => m
  aesDec := fun _ _ m => m
  deriveKeyF := fun _ _ => List.replicate 32 0
  errStr := fun _ => []

theorem mock_utf8_round : ∀ s, (∀ c ∈ s, c < 1114112) →
    mockUtf8Decode (mockUtf8Encode s) = some s := by
  intro s
  induction s with
  | nil => intro _; rfl
  | cons c cs ih =>
    intro h
    have hc : c < 1114112 := h c (by simp)
    have hcs : ∀ x ∈ cs, x < 1114112 := fun x hx => h x (by simp [hx])
    show mockUtf8Decode
      (c % 256 :: c / 256 % 256 :: c / 65536 % 256 :: mockUtf8Encode cs) =
      some (c :: cs)
    simp only [mockUtf8Decode, ih hcs, Option.map_some']
    have hv : c % 256 + 256 * (c / 256 % 256) + 65536 * (c / 65536 % 256)
        = c := by omega
    rw [hv]

theorem mockLibs_spec : LibsSpec mockLibs := by
  constructor
  · intro b
    rfl
  · exact mock_utf8_round
  · intro s _ b hb
    simp only [mockLibs, mockUtf8Encode, List.mem_flatMap] at hb
    obtain ⟨c, _, hc⟩ := hb
    simp only [List.mem_cons, List.not_mem_nil, or_false] at hc
    rcases hc with rfl | rfl | rfl
    · omega
    · omega
    · omega
  · intro x hx
    exact hx
  · intro k iv m
    rfl
  · intro k iv m hm
    exact hm

theorem flatten_replicate_nil (n : Nat) :
    (List.replicate n ([] : List Nat)).flatten = [] := by
  induction n with
  | zero => rfl
  | succ n ih => simp [List.replicate_succ, ih]

theorem getD_map {α β : Type} (dβ : β) (f : α → β) (l : List α)
    (i : Nat) (hi : i < l.length) (dα : α) :
    (l.map f).getD i dβ = f (l.getD i dα) := by
  rw [List.getD_eq_getElem _ _ (by rw [List.length_map]; exact hi),
    List.getElem_map, List.getD_eq_getElem _ _ hi]

/-- C1: For every text `T`, every key `K`, and every mode
`M ∈ {basic, advanced, aes}`, restoring the obfuscated output with the
same key and the metadata produced by obfuscation returns `T` exactly.
Basic and advanced modes are `apply_confusion`/`restore_text` of
`confused_text.py`; aes mode is `aes_encrypt`/`aes_decrypt` of
`text_processor.py` (whose metadata — salt and IV — travels inside the
envelope).  The hypotheses are the contracts of the external libraries
(`LibsSpec`), the validity of the text's code points, and that the salt
and IV drawn by `os.urandom` are 16 bytes each. -/
theorem claim_C1_round_trip (L : Libs) (hL : LibsSpec L) (text : List Nat)
    (key : Nat) (password : Nat) (salt iv : List Nat)
    (hsalt : salt.length = 16) (hiv : iv.length = 16)
    (hsb : ∀ b ∈ salt, b < 256) (hib : ∀ b ∈ iv, b < 256)
    (ht : ∀ c ∈ text, c < 1114112) :
    ((ConfusedText.apply_confusion L text key "basic").bind
      (fun r => ConfusedText.restore_text L r.1 key r.2 "basic")
        = .ok text) ∧
    ((ConfusedText.apply_confusion L text key "advanced").bind
      (fun r => ConfusedText.restore_text L r.1 key r.2 "advanced")
        = .ok text) ∧
    (TextProcessor.aes_decrypt L
      (TextProcessor.aes_encrypt L text password salt iv) password = text) :=
  ⟨ConfusedText.basic_round_trip L text key,
   ConfusedText.advanced_round_trip L hL text key ht,
   TextProcessor.aes_round_trip L hL text password salt iv hsalt hiv
     hsb hib ht⟩

theorem claim_C1_round_trip_witness :
    ((ConfusedText.apply_confusion mockLibs (strCodes "Hi") 1 "basic").bind
      (fun r => ConfusedText.restore_text mockLibs r.1 1 r.2 "basic")
        = .ok (strCodes "Hi")) ∧
    ((ConfusedText.apply_confusion mockLibs (strCodes "Hi") 1
        "advanced").bind
      (fun r => ConfusedText.restore_text mockLibs r.1 1 r.2 "advanced")
        = .ok (strCodes "Hi")) ∧
    (TextProcessor.aes_decrypt mockLibs
      (TextProcessor.aes_encrypt mockLibs (strCodes "Hi") 0
        (List.replicate 16 0) (List.replicate 16 0)) 0 = strCodes "Hi") :=
  claim_C1_round_trip mockLibs mockLibs_spec (strCodes "Hi") 1 0
    (List.replicate 16 0) (List.replicate 16 0)
    (by decide) (by decide) (by decide) (by decide) (by decide)

/-- C2: For every RGB 8-bit image (modelled as its flattened pixel-triple
buffer) and every integer key, `restore_image` applied to the output and
permutation of `apply_confusion` with the same key is the identity,
pixel for pixel (`confused_image.py`). -/
theorem claim_C2_image_round_trip (pixels : List Pixel) (key : Nat) :
    ConfusedImage.restore_image (ConfusedImage.apply_confusion pixels key).1
      key (ConfusedImage.apply_confusion pixels key).2 = pixels :=
  ConfusedImage.image_round_trip pixels key

/-- C7: image obfuscation XORs the R, G, B planes of the pixel-permuted
image with the byte masks `(K+37)%256`, `(K+117)%256`, `(K+231)%256`
respectively, and emits the masked planes in the rotated channel order
`(G, B, R)`: pixel `i` of the output is `(G^gm, B^bm, R^rm)` of pixel
`permutation[i]` of the input. -/
theorem claim_C7_image_masks (pixels : List Pixel) (key : Nat) (i : Nat)
    (h : i < pixels.length) :
    (ConfusedImage.apply_confusion pixels key).1.getD i (0, 0, 0) =
      ((pixels.getD
          (((ConfusedImage.apply_confusion pixels key).2).getD i 0)
          (0, 0, 0)).2.1 ^^^ (key + 117) % 256,
       (pixels.getD
          (((ConfusedImage.apply_confusion pixels key).2).getD i 0)
          (0, 0, 0)).2.2 ^^^ (key + 231) % 256,
       (pixels.getD
          (((ConfusedImage.apply_confusion pixels key).2).getD i 0)
          (0, 0, 0)).1 ^^^ (key + 37) % 256) := by
  have h2 : (ConfusedImage.apply_confusion pixels key).2 =
      shuffle key (List.range pixels.length) := rfl
  rw [ConfusedImage.apply_confusion_fst, h2]
  have hplen : (shuffle key (List.range pixels.length)).length =
      pixels.length := by
    rw [(shuffle_perm key (List.range pixels.length)).length_eq,
      List.length_range]
  have hip : i < (shuffle key (List.range pixels.length)).length := by
    rw [hplen]
    exact h
  have hmaplen : i < ((shuffle key (List.range pixels.length)).map
      (fun i => pixels.getD i (0, 0, 0))).length := by
    rw [List.length_map]
    exact hip
  rw [getD_map (0, 0, 0) _ _ i hmaplen (0, 0, 0)]
  rw [getD_map (0, 0, 0) _ _ i hip 0]

theorem claim_C7_image_masks_witness :
    (0 : Nat) < ([(1, 2, 3), (4, 5, 6)] : List Pixel).length ∧
    (ConfusedImage.apply_confusion [(1, 2, 3), (4, 5, 6)] 5).1.getD 0
      (0, 0, 0) =
      ((([(1, 2, 3), (4, 5, 6)] : List Pixel).getD
          (((ConfusedImage.apply_confusion [(1, 2, 3), (4, 5, 6)] 5).2).getD
            0 0) (0, 0, 0)).2.1 ^^^ (5 + 117) % 256,
       (([(1, 2, 3), (4, 5, 6)] : List Pixel).getD
          (((ConfusedImage.apply_confusion [(1, 2, 3), (4, 5, 6)] 5).2).getD
            0 0) (0, 0, 0)).2.2 ^^^ (5 + 231) % 256,
       (([(1, 2, 3), (4, 5, 6)] : List Pixel).getD
          (((ConfusedImage.apply_confusion [(1, 2, 3), (4, 5, 6)] 5).2).getD
            0 0) (0, 0, 0)).1 ^^^ (5 + 37) % 256) :=
  ⟨by decide, claim_C7_image_masks [(1, 2, 3), (4, 5, 6)] 5 0 (by decide)⟩

/-- C8: applying the seeded substitution map and then its reverse map is
the identity on every text, and characters outside the fixed alphabet
pass through both directions unchanged
(`apply_character_substitution` / `reverse_character_substitution` of
`confused_text.py`). -/
theorem claim_C8_substitution_round_trip (seed : Nat) (text : List Nat)
    (c : Nat) (hc : c ∉ charsAlphabet) :
    (ConfusedText.reverse_character_substitution
      (ConfusedText.apply_character_substitution text seed).1
      (ConfusedText.apply_character_substitution text seed).2 = text) ∧
    ((ConfusedText.apply_character_substitution [c] seed).1 = [c]) ∧
    (ConfusedText.reverse_character_substitution [c]
      (ConfusedText.apply_character_substitution text seed).2 = [c]) := by
  refine ⟨ConfusedText.reverse_apply_character_substitution text seed,
    ?_, ?_⟩
  · show [((charsAlphabet.zip (shuffle seed charsAlphabet)).lookup c).getD c]
      = [c]
    rw [lookup_zip_of_not_mem hc]
    rfl
  · show [((((charsAlphabet.zip (shuffle seed charsAlphabet)).map
      (fun p => (p.2, p.1))).lookup c).getD c)] = [c]
    rw [ConfusedText.map_swap_zip]
    have hcs : c ∉ shuffle seed charsAlphabet := fun hmem =>
      hc ((shuffle_perm seed charsAlphabet).mem_iff.mp hmem)
    rw [lookup_zip_of_not_mem hcs]
    rfl

theorem claim_C8_substitution_round_trip_witness :
    (10 : Nat) ∉ charsAlphabet ∧
    ((ConfusedText.reverse_character_substitution
      (ConfusedText.apply_character_substitution (strCodes "ab") 1).1
      (ConfusedText.apply_character_substitution (strCodes "ab") 1).2
        = strCodes "ab") ∧
    ((ConfusedText.apply_character_substitution [10] 1).1 = [10]) ∧
    (ConfusedText.reverse_character_substitution [10]
      (ConfusedText.apply_character_substitution (strCodes "ab") 1).2
        = [10])) :=
  ⟨by decide, claim_C8_substitution_round_trip 1 (strCodes "ab") 10
    (by decide)⟩

/-- C9: for every mode string outside `{basic, advanced, aes}`, both
obfuscation and restoration raise the typed unknown-mode `ValueError`
(`raise ValueError(f"未知的混淆模式: {mode}")`) and produce no output, in
`confused_text.py` and in `text_processor.py` alike. -/
theorem claim_C9_unknown_mode (L : Libs) (text ct : List Nat)
    (key : Nat) (salt iv perm : List Nat)
    (meta : ConfusedText.Metadata) (mode : String)
    (h1 : mode ≠ "basic") (h2 : mode ≠ "advanced") (h3 : mode ≠ "aes") :
    (ConfusedText.apply_confusion L text key mode =
      .error (.unknownMode mode)) ∧
    (ConfusedText.restore_text L ct key meta mode =
      .error (.unknownMode mode)) ∧
    (TextProcessor.apply_text_confusion L text key salt iv mode =
      .error (.unknownMode mode)) ∧
    (TextProcessor.restore_text L ct key perm mode =
      .error (.unknownMode mode)) := by
  refine ⟨?_, ?_, ?_, ?_⟩
  · unfold ConfusedText.apply_confusion
    rw [if_neg h1, if_neg h2]
  · unfold ConfusedText.restore_text
    rw [if_neg h1, if_neg h2]
  · unfold TextProcessor.apply_text_confusion
    rw [if_neg h1, if_neg h2, if_neg h3]
  · unfold TextProcessor.restore_text
    rw [if_neg h1, if_neg h2, if_neg h3]

theorem claim_C9_unknown_mode_witness :
    (ConfusedText.apply_confusion mockLibs (strCodes "a") 0 "rot13" =
      .error (.unknownMode "rot13")) ∧
    (ConfusedText.restore_text mockLibs (strCodes "a") 0
      (.basic [0]) "rot13" = .error (.unknownMode "rot13")) ∧
    (TextProcessor.apply_text_confusion mockLibs (strCodes "a") 0
      (List.replicate 16 0) (List.replicate 16 0) "rot13" =
      .error (.unknownMode "rot13")) ∧
    (TextProcessor.restore_text mockLibs (strCodes "a") 0 [0] "rot13" =
      .error (.unknownMode "rot13")) :=
  claim_C9_unknown_mode mockLibs (strCodes "a") (strCodes "a") 0
    (List.replicate 16 0) (List.replicate 16 0) [0]
    (.basic [0]) "rot13" (by decide) (by decide) (by decide)

/-- C10: in `confused_text.py`, `restore_text` never consults its `key`
argument in the basic and advanced modes — the metadata alone determines
the restored output, so restoring with any two keys gives identical
results. -/
theorem claim_C10_restore_key_independent (L : Libs)
    (confused : List Nat) (k1 k2 : Nat) (meta : ConfusedText.Metadata)
    (mode : String) (h : mode = "basic" ∨ mode = "advanced") :
    ConfusedText.restore_text L confused k1 meta mode =
      ConfusedText.restore_text L confused k2 meta mode := rfl

theorem claim_C10_restore_key_independent_witness :
    ("basic" = "basic" ∨ ("basic" : String) = "advanced") ∧
    ConfusedText.restore_text mockLibs (strCodes "ba") 7
      (.basic [1, 0]) "basic" =
    ConfusedText.restore_text mockLibs (strCodes "ba") 12345
      (.basic [1, 0]) "basic" :=
  ⟨Or.inl rfl, claim_C10_restore_key_independent mockLibs (strCodes "ba")
    7 12345 (.basic [1, 0]) "basic" (Or.inl rfl)⟩

/-- C3 counterexample: a decryption failure is NOT surfaced as a typed
error.  `aes_decrypt` catches the failure and returns the message string
`"解密错误: ..."` through its ordinary string return value — and that very
string is also a legitimate successful output: decrypting a well-formed
envelope whose plaintext is the message yields the identical value.  A
caller therefore cannot distinguish the failure from a successful
restoration.  (First conjunct: a failing envelope — empty ciphertext, so
unpadding fails, second conjunct — returns the message; third conjunct:
a succeeding envelope returns the same value.) -/
theorem claim_C3_counterexample :
    (TextProcessor.aes_decrypt mockLibs
      (b64encodeBytes (List.replicate 32 0)) 0 =
        TextProcessor.decryptErrorPrefix) ∧
    (unpadPkcs7 (mockLibs.aesDec (mockLibs.deriveKeyF 0
      (List.replicate 16 0)) (List.replicate 16 0) []) 16 = none) ∧
    (TextProcessor.aes_decrypt mockLibs
      (TextProcessor.aes_encrypt mockLibs TextProcessor.decryptErrorPrefix
        0 (List.replicate 16 0) (List.replicate 16 0)) 0 =
        TextProcessor.decryptErrorPrefix) :=
  ⟨rfl, rfl, rfl⟩

/-- C3 amended: `aes_decrypt` never raises; every internal decryption
failure (bad base64, bad padding, bad text decoding) is caught and
returned as the formatted message `"解密错误: " ++ str(e)` in the same
string channel as successful output, not as a typed error. -/
theorem claim_C3_amended (L : Libs) (env : List Nat) (password : Nat) :
    (b64decodeBytes env = none →
      TextProcessor.aes_decrypt L env password =
        TextProcessor.decryptErrorPrefix ++ L.errStr .corruptData) ∧
    (∀ combined, b64decodeBytes env = some combined →
      unpadPkcs7 (L.aesDec (L.deriveKeyF password (combined.take 16))
        ((combined.drop 16).take 16) (combined.drop 32)) 16 = none →
      TextProcessor.aes_decrypt L env password =
        TextProcessor.decryptErrorPrefix ++ L.errStr .badPadding) ∧
    (∀ combined d, b64decodeBytes env = some combined →
      unpadPkcs7 (L.aesDec (L.deriveKeyF password (combined.take 16))
        ((combined.drop 16).take 16) (combined.drop 32)) 16 = some d →
      L.utf8Decode d = none →
      TextProcessor.aes_decrypt L env password =
        TextProcessor.decryptErrorPrefix ++ L.errStr .badUnicode) := by
  refine ⟨?_, ?_, ?_⟩
  · intro hb
    unfold TextProcessor.aes_decrypt
    rw [hb]
  · intro combined hb hu
    simp only [TextProcessor.aes_decrypt, hb, hu]
  · intro combined d hb hu hd
    simp only [TextProcessor.aes_decrypt, hb, hu, hd]

theorem claim_C3_amended_witness :
    TextProcessor.aes_decrypt mockLibs
      (b64encodeBytes (List.replicate 32 0)) 0 =
      TextProcessor.decryptErrorPrefix ++ mockLibs.errStr .badPadding :=
  (claim_C3_amended mockLibs (b64encodeBytes (List.replicate 32 0)) 0).2.1
    (List.replicate 32 0) (by decide) (by decide)

/-- C4 counterexample: basic-mode obfuscation in `confused_text.py` does
NOT apply the alphabet substitution cipher.  On the text `"a"` with key 1
the basic output is `"a"` itself (only the length-1 permutation is
applied), whereas substitution-then-permutation would produce `"b"`. -/
theorem claim_C4_counterexample :
    (ConfusedText.apply_confusion mockLibs (strCodes "a") 1 "basic" =
      .ok (strCodes "a", .basic [0])) ∧
    ((generate_permutation_key 1 1).map (fun i =>
      ((ConfusedText.apply_character_substitution (strCodes "a") 1).1).getD
        i 0) = strCodes "b") ∧
    strCodes "a" ≠ strCodes "b" :=
  ⟨rfl, rfl, by decide⟩

/-- C4 amended: in `confused_text.py`, basic mode applies only the seeded
position permutation (no substitution), with metadata the permutation; in
`text_processor.py`, `basic_text_confusion` applies the alphabet
substitution and then the seeded position permutation (both drawn with
seed `key`), returning the permutation. -/
theorem claim_C4_amended (L : Libs) (text : List Nat) (key : Nat) :
    (ConfusedText.apply_confusion L text key "basic" =
      .ok ((ConfusedText.apply_position_permutation text key).1,
        .basic (ConfusedText.apply_position_permutation text key).2)) ∧
    (TextProcessor.basic_text_confusion text key =
      ((ConfusedText.apply_position_permutation
        (ConfusedText.apply_character_substitution text key).1 key).1,
       (ConfusedText.apply_position_permutation
        (ConfusedText.apply_character_substitution text key).1 key).2)) :=
  ⟨rfl, rfl⟩

/-- C5: advanced-mode obfuscation in `confused_text.py` is substitution
with seed `K`, then the position permutation generated with seed `K+1`,
then deflate compression, then base64, with metadata
`{substitution_map, permutation}`; restoration base64-decodes and
decompresses before inverting the permutation and then the
substitution. -/
theorem claim_C5_advanced_pipeline (L : Libs) (text ct : List Nat)
    (key key2 : Nat) (cm : List (Nat × Nat)) (pk : List Nat) :
    (ConfusedText.apply_confusion L text key "advanced" = .ok
      (b64encodeBytes (L.compress (L.utf8Encode
        (ConfusedText.apply_position_permutation
          (ConfusedText.apply_character_substitution text key).1
          (key + 1)).1)),
       .advanced (ConfusedText.apply_character_substitution text key).2
         (ConfusedText.apply_position_permutation
           (ConfusedText.apply_character_substitution text key).1
           (key + 1)).2)) ∧
    (ConfusedText.restore_text L ct key2 (.advanced cm pk) "advanced" =
      match ConfusedText.reverse_compression L ct with
      | .error e => .error e
      | .ok dt =>
        match ConfusedText.reverse_position_permutation dt pk with
        | .error e => .error e
        | .ok rp =>
          .ok (ConfusedText.reverse_character_substitution rp cm)) := by
  refine ⟨rfl, ?_⟩
  unfold ConfusedText.restore_text
  rw [if_neg (by decide), if_pos rfl]
  simp only [ConfusedText.Metadata.permutation_key,
    ConfusedText.Metadata.char_mapGet]

/-- C6 counterexample: restoring `"ab"` with a permutation of length 1
does not fail — it silently returns the truncated string `"a"`. -/
theorem claim_C6_counterexample :
    ConfusedText.restore_text mockLibs (strCodes "ab") 0
      (.basic [0]) "basic" = .ok (strCodes "a") := rfl

/-- C6 amended: when the permutation metadata is shorter than the text
(entries in range), basic-mode restoration succeeds silently with an
output no longer than the permutation — a partially-filled, possibly
truncated string, with no error of any kind; when the permutation is
longer than the text it raises the untyped builtin `IndexError`, not an
`InvalidMetadataError` (no such typed error exists in the code). -/
theorem claim_C6_amended (L : Libs) (ct : List Nat) (key : Nat)
    (perm : List Nat) :
    (perm.length ≤ ct.length → (∀ o ∈ perm, o < ct.length) →
      ∃ s, ConfusedText.restore_text L ct key (.basic perm) "basic" =
        .ok s ∧ s.length ≤ perm.length) ∧
    (ct.length < perm.length →
      ConfusedText.restore_text L ct key (.basic perm) "basic" =
        .error .indexError) := by
  constructor
  · intro hlen hmem
    obtain ⟨s', hs1, hs2⟩ := ConfusedText.rppGo_ok ct perm 0
      (List.replicate ct.length []) (by omega)
      (by
        intro o ho
        rw [List.length_replicate]
        exact hmem o ho)
    refine ⟨s'.flatten, ?_, ?_⟩
    · show (ConfusedText.rppGo ct 0 perm
        (List.replicate ct.length [])).map List.flatten = .ok s'.flatten
      rw [hs1]
      rfl
    · rw [flatten_replicate_nil] at hs2
      simpa using hs2
  · intro hlt
    show (ConfusedText.rppGo ct 0 perm
      (List.replicate ct.length [])).map List.flatten = .error .indexError
    rw [ConfusedText.rppGo_err ct perm 0 _ (by omega) (by omega)]
    rfl

theorem claim_C6_amended_witness :
    (∃ s, ConfusedText.restore_text mockLibs (strCodes "ab") 0
      (.basic [1]) "basic" = .ok s ∧ s.length ≤ 1) ∧
    (ConfusedText.restore_text mockLibs (strCodes "a") 0
      (.basic [0, 0]) "basic" = .error .indexError) :=
  ⟨(claim_C6_amended mockLibs (strCodes "ab") 0 [1]).1 (by decide)
    (by decide),
   (claim_C6_amended mockLibs (strCodes "a") 0 [0, 0]).2 (by decide)⟩
